import Mathlib

/-!
Verification development for the rnm batch renamer (src/renamer.ts).

The planner computeNewNames and the executor applyRenames are embedded as
pure Lean functions.  File names are lists of characters.  The JavaScript
RegExp fragment actually exercised by the program (literal characters,
backslash escapes, character classes, the dot, the digit escape, the empty
pattern) is modelled by a small engine in which every atom consumes exactly
one character; constructs outside the fragment (groups, alternation,
quantifiers, anchors) are treated as unparseable.  String.replace is
modelled by replaceFirst (RegExp without the g flag, as in regex mode) and
replaceAll (RegExp with the g flag, as in literal mode); the replacement
text undergoes the dollar substitution of GetSubstitution for a pattern
without capture groups (expandReplacement).  The
filesystem is a partial map from names to content tokens, and renameSync is
fsRename, which follows POSIX rename: it fails when the source is missing
and silently overwrites an existing destination.
-/

namespace Rnm

/-- File names are modelled as lists of characters. -/
abbrev Name := List Char

/-- Shorthand turning a string literal into a Name. -/
def nm (s : String) : Name := s.toList

/-- One atom of the regular-expression fragment: a literal character or a
character class (possibly negated).  Every atom matches exactly one
character. -/
inductive Atom where
  | lit (c : Char)
  | cls (neg : Bool) (cs : List Char)
  deriving DecidableEq

/-- A pattern of the fragment is a sequence of one-character atoms. -/
abbrev Pattern := List Atom

/-- The ten decimal digit characters, the class denoted by a backslash
followed by d. -/
def digitChars : List Char := ['0', '1', '2', '3', '4', '5', '6', '7', '8', '9']

/-- Characters the JavaScript dot does not match. -/
def lineTerminators : List Char := ['\n', '\r', Char.ofNat 0x2028, Char.ofNat 0x2029]

/-- Whether an atom matches a single character. -/
def atomMatches : Atom → Char → Bool
  | .lit c, a => a = c
  | .cls neg cs, a => if neg then ! cs.contains a else cs.contains a

/-- Parse the body of a character class after the opening bracket (and after
an optional leading caret), returning the listed characters and the
remaining input, or none when the class is unterminated. -/
def parseClassBody : List Char → List Char → Option (List Char × List Char)
  | [], _ => none
  | c :: rest, acc =>
    if c = ']' then some (acc.reverse, rest)
    else if c = '\\' then
      match rest with
      | [] => none
      | c2 :: rest2 => parseClassBody rest2 (c2 :: acc)
    else parseClassBody rest (c :: acc)

/-- Parse a character class starting just after the opening bracket. -/
def parseClassTail (l : List Char) : Option (Atom × List Char) :=
  match l with
  | [] => none
  | c :: rest =>
    if c = '^' then (parseClassBody rest []).map (fun p => (Atom.cls true p.1, p.2))
    else (parseClassBody l []).map (fun p => (Atom.cls false p.1, p.2))

/-- The atom denoted by a backslash escape. -/
def escapedAtom (c : Char) : Atom :=
  if c = 'd' then Atom.cls false digitChars else Atom.lit c

/-- Characters of the fragment grammar that would start a construct the
model does not support; patterns using them are treated as unparseable. -/
def unsupportedChars : List Char := ['(', ')', '|', '*', '+', '?', '^', '$']

/-- Fuel-indexed pattern parser; the fuel only bounds recursion depth and
the wrapper parseRegex always supplies enough. -/
def parseRegexFuel : Nat → List Char → Option Pattern
  | _, [] => some []
  | 0, _ :: _ => none
  | fuel + 1, c :: rest =>
    if c = '\\' then
      match rest with
      | [] => none
      | c2 :: rest2 => (parseRegexFuel fuel rest2).map (fun p => escapedAtom c2 :: p)
    else if c = '[' then
      match parseClassTail rest with
      | none => none
      | some (a, rest2) => (parseRegexFuel fuel rest2).map (fun p => a :: p)
    else if c = '.' then
      (parseRegexFuel fuel rest).map (fun p => Atom.cls true lineTerminators :: p)
    else if c ∈ unsupportedChars then none
    else (parseRegexFuel fuel rest).map (fun p => Atom.lit c :: p)

/-- Model of new RegExp(find): some pattern on success, none when the
pattern text is rejected. -/
def parseRegex (find : Name) : Option Pattern :=
  parseRegexFuel find.length find

/-- Whether a pattern matches a prefix of the input.  Every atom consumes
exactly one character, so a match always consumes pattern-length
characters. -/
def matchesPrefix : Pattern → List Char → Bool
  | [], _ => true
  | _ :: _, [] => false
  | a :: pat, c :: s => atomMatches a c && matchesPrefix pat s

/-- Dollar substitution applied to the replacement text, as the
GetSubstitution operation of JavaScript String.replace performs it for a
pattern with no capture groups (the fragment has none): a doubled dollar
yields one dollar, dollar ampersand yields the matched text, dollar
backquote (code 0x60) the text before the match, dollar quote (code 0x27)
the text after the match; any other use of the dollar character, dollar
digit references included, is literal when there are no groups. -/
def expandReplacementGo (matched before after : Name) : Bool → Name → Name
  | false, [] => []
  | false, c :: rest =>
    if c = '$' then expandReplacementGo matched before after true rest
    else c :: expandReplacementGo matched before after false rest
  | true, [] => ['$']
  | true, c :: rest =>
    if c = '$' then '$' :: expandReplacementGo matched before after false rest
    else if c = '&' then matched ++ expandReplacementGo matched before after false rest
    else if c = Char.ofNat 0x60 then before ++ expandReplacementGo matched before after false rest
    else if c = Char.ofNat 0x27 then after ++ expandReplacementGo matched before after false rest
    else '$' :: c :: expandReplacementGo matched before after false rest

/-- Dollar substitution over a whole replacement text; the Bool flag of
the worker records a pending dollar character. -/
def expandReplacement (matched before after rep : Name) : Name :=
  expandReplacementGo matched before after false rep

/-- Model of String.replace with a non-global regex: replace the leftmost
match only, expanding dollar patterns in the replacement against that
match; the first list argument accumulates the scanned prefix in
reverse. -/
def replaceFirstGo (pat : Pattern) (rep : Name) : Name → Name → Name
  | seen, [] =>
    if matchesPrefix pat [] then seen.reverse ++ expandReplacement [] seen.reverse [] rep
    else seen.reverse
  | seen, c :: rest =>
    if matchesPrefix pat (c :: rest) then
      seen.reverse
        ++ expandReplacement ((c :: rest).take pat.length) seen.reverse
            ((c :: rest).drop pat.length) rep
        ++ (c :: rest).drop pat.length
    else replaceFirstGo pat rep (c :: seen) rest

/-- Model of String.replace with a non-global regex. -/
def replaceFirst (pat : Pattern) (rep s : Name) : Name := replaceFirstGo pat rep [] s

/-- Fuel-indexed body of global replacement with dollar expansion; the
second list argument accumulates the scanned prefix in reverse, and the
fuel only bounds recursion depth, replaceAll always supplying enough. -/
def replaceAllFuel (pat : Pattern) (rep : Name) : Nat → Name → Name → Name
  | _, seen, [] =>
    if matchesPrefix pat [] then expandReplacement [] seen.reverse [] rep else []
  | 0, _, s => s
  | fuel + 1, seen, c :: rest =>
    if matchesPrefix pat (c :: rest) then
      if pat.length = 0 then
        expandReplacement [] seen.reverse (c :: rest) rep
          ++ c :: replaceAllFuel pat rep fuel (c :: seen) rest
      else
        expandReplacement ((c :: rest).take pat.length) seen.reverse
            ((c :: rest).drop pat.length) rep
          ++ replaceAllFuel pat rep fuel
              (((c :: rest).take pat.length).reverse ++ seen)
              ((c :: rest).drop pat.length)
    else c :: replaceAllFuel pat rep fuel (c :: seen) rest

/-- Model of String.replace with a global regex: replace every
non-overlapping match, scanning left to right. -/
def replaceAll (pat : Pattern) (rep s : Name) : Name :=
  replaceAllFuel pat rep s.length [] s

/-- Model of String.replace dispatching on whether the compiled regex
carries the global flag. -/
def jsReplace (global : Bool) (pat : Pattern) (rep s : Name) : Name :=
  if global then replaceAll pat rep s else replaceFirst pat rep s

/-- The characters escaped by escapeRegexLiteral in the source. -/
def regexMetaChars : List Char :=
  ['.', '*', '+', '?', '^', '$', '{', '}', '(', ')', '|', '[', ']', '\\']

/-- Embedding of escapeRegexLiteral: prefix every regex metacharacter with
a backslash. -/
def escapeRegexLiteral : Name → Name
  | [] => []
  | c :: rest =>
    if c ∈ regexMetaChars then '\\' :: c :: escapeRegexLiteral rest
    else c :: escapeRegexLiteral rest

/-- One rename operation, original filename to new filename
(interface RenameEntry in the source). -/
structure RenameEntry where
  oldName : Name
  newName : Name
  deriving DecidableEq

/-- The distinct errors thrown by computeNewNames, one constructor per
throw site, in source order of appearance. -/
inductive RenameError where
  | invalidRegex (find : Name)
  | emptyFind
  | emptyResult (oldName : Name)
  | duplicateTarget (newName : Name)
  | overwrite (newName : Name)
  deriving DecidableEq

/-- Whether an error is a pattern-compilation failure (the InvalidPattern
kind of the spec) rather than a name conflict. -/
def RenameError.isPatternErr : RenameError → Bool
  | .invalidRegex _ => true
  | .emptyFind => true
  | _ => false

/-- Whether a planner result is a pattern-compilation failure. -/
def resultPatternErr : Except RenameError (List RenameEntry) → Bool
  | .ok _ => false
  | .error e => e.isPatternErr

/-- The per-file loop of computeNewNames: for each old name in order,
compute the candidate, reject empty results, duplicate targets, and
targets that differ from their source yet name an existing file, then
record the target as seen and append the entry unless it is an identity
rename. -/
def planLoop (sub : Name → Name) (fileSet : List Name) :
    List Name → List Name → List RenameEntry → Except RenameError (List RenameEntry)
  | [], _, acc => .ok acc.reverse
  | old :: rest, seen, acc =>
    let new := sub old
    if new = [] then .error (.emptyResult old)
    else if new ∈ seen then .error (.duplicateTarget new)
    else if new ≠ old ∧ new ∈ fileSet then .error (.overwrite new)
    else
      planLoop sub fileSet rest (new :: seen)
        (if new ≠ old then ⟨old, new⟩ :: acc else acc)

/-- Embedding of computeNewNames: compile the pattern (regex mode compiles
find directly and without the global flag; literal mode rejects an empty
find, escapes it, and compiles with the global flag), then run the
validation loop over the file listing. -/
def computeNewNames (files : List Name) (find replace : Name) (isRegex : Bool) :
    Except RenameError (List RenameEntry) :=
  if isRegex then
    match parseRegex find with
    | none => .error (.invalidRegex find)
    | some pat => planLoop (jsReplace false pat replace) files files [] []
  else if find = [] then .error .emptyFind
  else
    match parseRegex (escapeRegexLiteral find) with
    | none => .error (.invalidRegex (escapeRegexLiteral find))
    | some pat => planLoop (jsReplace true pat replace) files files [] []

/-- A directory is a partial map from names to content tokens. -/
abbrev Dir := Name → Option Nat

/-- Build a directory from an association list of names and contents. -/
def Dir.ofList (l : List (Name × Nat)) : Dir := fun n => l.lookup n

/-- Model of renameSync within one directory: fails when the source does
not exist, moves the content otherwise, silently overwriting any file at
the destination (POSIX rename semantics). -/
def fsRename (d : Dir) (src dst : Name) : Option Dir :=
  match d src with
  | none => none
  | some c => some (fun n => if n = dst then some c else if n = src then none else d n)

/-- Decimal digit character for a value below ten. -/
def digitChar (d : Nat) : Char := Char.ofNat (48 + d)

/-- Fuel-indexed decimal rendering; the fuel only bounds recursion depth
and decimalDigits always supplies enough. -/
def decimalDigitsFuel : Nat → Nat → List Char
  | 0, _ => []
  | fuel + 1, n =>
    if n < 10 then [digitChar n]
    else decimalDigitsFuel fuel (n / 10) ++ [digitChar (n % 10)]

/-- Decimal rendering of a natural number, as JavaScript template
interpolation renders the entry index. -/
def decimalDigits (n : Nat) : List Char := decimalDigitsFuel (n + 1) n

/-- The staging marker prefix used by every temporary name. -/
def rnmMark : Name := nm "__rnm_"

/-- Embedding of the template that builds the temporary name for entry i
with the given original name. -/
def tempName (i : Nat) (old : Name) : Name :=
  rnmMark ++ decimalDigits i ++ '_' :: old

/-- Phase 1 of applyRenames: walk the indexed entries and move every entry
whose old name is also some target to its temporary name, recording the
old-to-temp mapping. -/
def stagePhase (targets : List Name) :
    List (Nat × RenameEntry) → Dir → List (Name × Name) → Option (Dir × List (Name × Name))
  | [], d, moved => some (d, moved)
  | (i, e) :: rest, d, moved =>
    if e.oldName ∈ targets then
      match fsRename d e.oldName (tempName i e.oldName) with
      | none => none
      | some d2 => stagePhase targets rest d2 ((e.oldName, tempName i e.oldName) :: moved)
    else stagePhase targets rest d moved

/-- The effective phase-2 source of an entry: the recorded temporary name
when the entry was staged, its original name otherwise. -/
def effSrc (moved : List (Name × Name)) (e : RenameEntry) : Name :=
  (moved.lookup e.oldName).getD e.oldName

/-- Phase 2 of applyRenames: for every entry in batch order, rename its
effective current name to the target. -/
def finalizePhase : List RenameEntry → List (Name × Name) → Dir → Option Dir
  | [], _, d => some d
  | e :: rest, moved, d =>
    match fsRename d (effSrc moved e) e.newName with
    | none => none
    | some d2 => finalizePhase rest moved d2

/-- Embedding of applyRenames: no-op on an empty batch, otherwise the
two-phase stage-then-finalize algorithm. -/
def applyRenames (d : Dir) (renames : List RenameEntry) : Option Dir :=
  if renames = [] then some d
  else
    match stagePhase (renames.map RenameEntry.newName) renames.enum d [] with
    | none => none
    | some (d2, moved) => finalizePhase renames moved d2

/-- A name is clean when it does not start with the staging marker. -/
def noRnm (n : Name) : Prop := ¬ rnmMark <+: n

instance noRnm_decidable (n : Name) : Decidable (noRnm n) := by
  unfold noRnm
  infer_instance

/-- The swap batch over a.txt and b.txt. -/
def swapBatch : List RenameEntry := [⟨nm "a.txt", nm "b.txt"⟩, ⟨nm "b.txt", nm "a.txt"⟩]

/-- A clean two-file directory. -/
def dSwapGood : Dir := Dir.ofList [(nm "a.txt", 0), (nm "b.txt", 1)]

/-- A directory that also holds a file named like the first temporary
name of the swap batch. -/
def dSwapBad : Dir :=
  Dir.ofList [(nm "a.txt", 0), (nm "b.txt", 1), (tempName 0 (nm "a.txt"), 2)]

/-- The directory applyRenames produces from dSwapBad and the swap batch. -/
def dSwapBadFinal : Dir := fun n =>
  if n = nm "a.txt" then some 1
  else if n = tempName 1 (nm "b.txt") then none
  else if n = nm "b.txt" then some 0
  else if n = tempName 0 (nm "a.txt") then none
  else if n = tempName 1 (nm "b.txt") then some 1
  else if n = nm "b.txt" then none
  else if n = tempName 0 (nm "a.txt") then some 0
  else if n = nm "a.txt" then none
  else dSwapBad n

/-- A directory holding a file named like the temporary name of entry 1
of the swap batch over c.txt and d.txt. -/
def dStageBad : Dir :=
  Dir.ofList [(nm "c.txt", 10), (nm "d.txt", 11), (tempName 1 (nm "d.txt"), 12)]

/-- The swap batch over c.txt and d.txt. -/
def swapBatchCD : List RenameEntry := [⟨nm "c.txt", nm "d.txt"⟩, ⟨nm "d.txt", nm "c.txt"⟩]

/-- The directory the staging phase produces from dStageBad. -/
def dStageBadFinal : Dir := fun n =>
  if n = tempName 1 (nm "d.txt") then some 11
  else if n = nm "d.txt" then none
  else if n = tempName 0 (nm "c.txt") then some 10
  else if n = nm "c.txt" then none
  else dStageBad n

/-! ### Temporary-name arithmetic -/

lemma digitChar_ne_underscore {d : Nat} (h : d < 10) : digitChar d ≠ '_' := by
  interval_cases d <;> decide

lemma underscore_not_mem_decimalDigitsFuel (fuel : Nat) :
    ∀ n, '_' ∉ decimalDigitsFuel fuel n := by
  induction fuel with
  | zero => intro n; simp [decimalDigitsFuel]
  | succ fuel ih =>
    intro n
    by_cases h : n < 10
    · simp only [decimalDigitsFuel, if_pos h, List.mem_singleton]
      intro hx
      exact digitChar_ne_underscore h hx.symm
    · simp only [decimalDigitsFuel, if_neg h, List.mem_append, List.mem_singleton]
      rintro (hx | hx)
      · exact ih _ hx
      · exact digitChar_ne_underscore (Nat.mod_lt _ (by norm_num)) hx.symm

lemma underscore_not_mem_decimalDigits (n : Nat) : '_' ∉ decimalDigits n :=
  underscore_not_mem_decimalDigitsFuel _ n

lemma append_underscore_inj :
    ∀ (ds1 ds2 a b : List Char), '_' ∉ ds1 → '_' ∉ ds2 →
      ds1 ++ '_' :: a = ds2 ++ '_' :: b → ds1 = ds2 ∧ a = b := by
  intro ds1
  induction ds1 with
  | nil =>
    intro ds2 a b _ h2 h
    cases ds2 with
    | nil => simpa using h
    | cons c t =>
      simp only [List.nil_append, List.cons_append, List.cons.injEq] at h
      cases h.1
      exact absurd (List.mem_cons_self _ _) h2
  | cons c t ih =>
    intro ds2 a b h1 h2 h
    cases ds2 with
    | nil =>
      simp only [List.cons_append, List.nil_append, List.cons.injEq] at h
      rw [h.1] at h1
      exact absurd (List.mem_cons_self _ _) h1
    | cons c2 t2 =>
      simp only [List.cons_append, List.cons.injEq] at h
      obtain ⟨he, ha⟩ :=
        ih t2 a b (fun hx => h1 (List.mem_cons_of_mem _ hx))
          (fun hx => h2 (List.mem_cons_of_mem _ hx)) h.2
      exact ⟨by rw [h.1, he], ha⟩

lemma tempName_inj_name {i j : Nat} {a b : Name} (h : tempName i a = tempName j b) :
    a = b := by
  unfold tempName at h
  rw [List.append_assoc, List.append_assoc] at h
  have h2 := List.append_cancel_left h
  exact (append_underscore_inj _ _ _ _ (underscore_not_mem_decimalDigits i)
    (underscore_not_mem_decimalDigits j) h2).2

lemma rnmMark_prefix_tempName (i : Nat) (a : Name) : rnmMark <+: tempName i a :=
  ⟨decimalDigits i ++ '_' :: a, by simp [tempName]⟩

lemma tempName_ne_of_noRnm {n : Name} (h : noRnm n) (i : Nat) (a : Name) :
    tempName i a ≠ n :=
  fun he => h (he ▸ rnmMark_prefix_tempName i a)

/-! ### Directory lemmas -/

lemma Dir.ofList_isSome_iff (l : List (Name × Nat)) :
    ∀ n, (Dir.ofList l n).isSome ↔ n ∈ l.map Prod.fst := by
  induction l with
  | nil => intro n; simp [Dir.ofList, List.lookup]
  | cons p t ih =>
    intro n
    obtain ⟨k, v⟩ := p
    by_cases he : n = k
    · subst he
      simp [Dir.ofList, List.lookup_cons]
    · have hb : (n == k) = false := beq_eq_false_iff_ne.mpr he
      simp only [Dir.ofList, List.lookup_cons, hb, List.map_cons, List.mem_cons]
      rw [← ih n]
      simp [Dir.ofList, he]

lemma Dir.ofList_noRnm {l : List (Name × Nat)} (hl : ∀ p ∈ l, noRnm p.1) :
    ∀ n, (Dir.ofList l n).isSome → noRnm n := by
  intro n h
  obtain ⟨p, hp, hpe⟩ := List.mem_map.mp ((Dir.ofList_isSome_iff l n).mp h)
  exact hpe ▸ hl p hp

/-! ### Characterization of phase 2 -/

lemma finalizePhase_spec (moved : List (Name × Name)) :
    ∀ (R : List RenameEntry) (d : Dir),
    (R.map (effSrc moved)).Nodup →
    (R.map RenameEntry.newName).Nodup →
    (∀ e ∈ R, ∀ f ∈ R, effSrc moved e ≠ f.newName) →
    (∀ e ∈ R, (d (effSrc moved e)).isSome) →
    ∃ d2, finalizePhase R moved d = some d2
      ∧ (∀ e ∈ R, d2 e.newName = d (effSrc moved e))
      ∧ (∀ n, n ∉ R.map RenameEntry.newName → n ∉ R.map (effSrc moved) → d2 n = d n)
      ∧ (∀ n, n ∉ R.map RenameEntry.newName → n ∈ R.map (effSrc moved) → d2 n = none) := by
  intro R
  induction R with
  | nil =>
    intro d _ _ _ _
    exact ⟨d, rfl, by simp, fun n _ _ => rfl, by simp⟩
  | cons e rest ih =>
    intro d hsrc hnew hdisj hex
    obtain ⟨c, hc⟩ := Option.isSome_iff_exists.mp (hex e (List.mem_cons_self _ _))
    have hsrc0 : effSrc moved e ∉ rest.map (effSrc moved) := (List.nodup_cons.mp hsrc).1
    have hsrc1 : (rest.map (effSrc moved)).Nodup := (List.nodup_cons.mp hsrc).2
    have hnew0 : e.newName ∉ rest.map RenameEntry.newName := (List.nodup_cons.mp hnew).1
    have hnew1 : (rest.map RenameEntry.newName).Nodup := (List.nodup_cons.mp hnew).2
    set d1 : Dir :=
      fun n => if n = e.newName then some c else if n = effSrc moved e then none else d n
      with hd1
    have hren : fsRename d (effSrc moved e) e.newName = some d1 := by
      unfold fsRename
      rw [hc]
    have hstep : ∀ f ∈ rest, d1 (effSrc moved f) = d (effSrc moved f) := by
      intro f hf
      have h1 : effSrc moved f ≠ e.newName :=
        hdisj f (List.mem_cons_of_mem _ hf) e (List.mem_cons_self _ _)
      have h2 : effSrc moved f ≠ effSrc moved e := by
        intro hx
        exact hsrc0 (hx ▸ List.mem_map_of_mem (effSrc moved) hf)
      simp [hd1, h1, h2]
    obtain ⟨d2, hfin, hP1, hP2, hP3⟩ :=
      ih d1 hsrc1 hnew1
        (fun a ha b hb => hdisj a (List.mem_cons_of_mem _ ha) b (List.mem_cons_of_mem _ hb))
        (fun f hf => by rw [hstep f hf]; exact hex f (List.mem_cons_of_mem _ hf))
    refine ⟨d2, ?_, ?_, ?_, ?_⟩
    · unfold finalizePhase
      rw [hren]
      exact hfin
    · intro f hf
      rcases List.mem_cons.mp hf with rfl | hf2
      · have hx1 : f.newName ∉ rest.map RenameEntry.newName := hnew0
        have hx2 : f.newName ∉ rest.map (effSrc moved) := by
          intro hx
          obtain ⟨g, hg, hge⟩ := List.mem_map.mp hx
          exact hdisj g (List.mem_cons_of_mem _ hg) f (List.mem_cons_self _ _) hge
        rw [hP2 _ hx1 hx2]
        simp [hd1, hc]
      · rw [hP1 f hf2, hstep f hf2]
    · intro n hn1 hn2
      have hn1r : n ∉ rest.map RenameEntry.newName :=
        fun hx => hn1 (List.mem_cons_of_mem _ hx)
      have hn2r : n ∉ rest.map (effSrc moved) :=
        fun hx => hn2 (List.mem_cons_of_mem _ hx)
      have hne1 : n ≠ e.newName := fun hx => hn1 (hx ▸ List.mem_cons_self _ _)
      have hne2 : n ≠ effSrc moved e := fun hx => hn2 (hx ▸ List.mem_cons_self _ _)
      rw [hP2 n hn1r hn2r]
      simp [hd1, hne1, hne2]
    · intro n hn1 hn2
      have hn1r : n ∉ rest.map RenameEntry.newName :=
        fun hx => hn1 (List.mem_cons_of_mem _ hx)
      have hne1 : n ≠ e.newName := fun hx => hn1 (hx ▸ List.mem_cons_self _ _)
      rcases List.mem_cons.mp hn2 with hx | hx
      · by_cases hr : n ∈ rest.map (effSrc moved)
        · exact hP3 n hn1r hr
        · have hde : effSrc moved e ≠ e.newName :=
            hdisj e (List.mem_cons_self _ _) e (List.mem_cons_self _ _)
          rw [hP2 n hn1r hr]
          simp [hd1, hne1, hx, hde]
      · exact hP3 n hn1r hx

/-! ### Characterization of phase 1 -/

lemma stagePhase_spec (targets : List Name) :
    ∀ (l : List (Nat × RenameEntry)) (d : Dir) (moved : List (Name × Name)),
    (∀ p ∈ l, (d p.2.oldName).isSome) →
    ((l.map (fun p => p.2.oldName)).Nodup) →
    (∀ p ∈ l, d (tempName p.1 p.2.oldName) = none) →
    (∀ p ∈ l, ∀ q ∈ l, tempName p.1 p.2.oldName ≠ q.2.oldName) →
    (∀ p ∈ l, ∀ q ∈ l, p ≠ q → tempName p.1 p.2.oldName ≠ tempName q.1 q.2.oldName) →
    ∃ d2, stagePhase targets l d moved =
        some (d2, ((l.filter (fun q => decide (q.2.oldName ∈ targets))).map
            (fun q => (q.2.oldName, tempName q.1 q.2.oldName))).reverse ++ moved)
      ∧ (∀ p ∈ l, p.2.oldName ∈ targets →
            d2 (tempName p.1 p.2.oldName) = d p.2.oldName ∧ d2 p.2.oldName = none)
      ∧ (∀ n, (∀ p ∈ l, p.2.oldName ∈ targets →
            n ≠ tempName p.1 p.2.oldName ∧ n ≠ p.2.oldName) → d2 n = d n) := by
  intro l
  induction l with
  | nil =>
    intro d moved _ _ _ _ _
    exact ⟨d, by simp [stagePhase], by simp, fun n _ => rfl⟩
  | cons p rest ih =>
    intro d moved hex hold htfree htold htdist
    obtain ⟨i, e⟩ := p
    have hpmem : (i, e) ∈ (i, e) :: rest := List.mem_cons_self _ _
    have hold0 : e.oldName ∉ rest.map (fun q => q.2.oldName) := by
      rw [List.map_cons, List.nodup_cons] at hold
      exact hold.1
    have hold1 : (rest.map (fun q => q.2.oldName)).Nodup := by
      rw [List.map_cons, List.nodup_cons] at hold
      exact hold.2
    have hqne : ∀ q ∈ rest, q ≠ (i, e) := by
      intro q hq he
      apply hold0
      have := List.mem_map_of_mem (fun r : Nat × RenameEntry => r.2.oldName) hq
      rw [he] at this
      exact this
    by_cases hst : e.oldName ∈ targets
    · obtain ⟨c, hc⟩ := Option.isSome_iff_exists.mp (hex (i, e) hpmem)
      have htne : tempName i e.oldName ≠ e.oldName := htold (i, e) hpmem (i, e) hpmem
      set t := tempName i e.oldName with ht
      set d1 : Dir :=
        fun n => if n = t then some c else if n = e.oldName then none else d n
        with hd1
      have hren : fsRename d e.oldName t = some d1 := by
        unfold fsRename
        rw [hc]
      have hd1old : ∀ q ∈ rest, d1 q.2.oldName = d q.2.oldName := by
        intro q hq
        have h1 : q.2.oldName ≠ t :=
          fun hx => (htold (i, e) hpmem q (List.mem_cons_of_mem _ hq)) hx.symm
        have h2 : q.2.oldName ≠ e.oldName :=
          fun hx => hold0 (hx ▸ List.mem_map_of_mem _ hq)
        simp [hd1, h1, h2]
      have hd1temp : ∀ q ∈ rest, d1 (tempName q.1 q.2.oldName) = none := by
        intro q hq
        have h1 : tempName q.1 q.2.oldName ≠ t :=
          htdist q (List.mem_cons_of_mem _ hq) (i, e) hpmem (hqne q hq)
        have h2 : tempName q.1 q.2.oldName ≠ e.oldName :=
          htold q (List.mem_cons_of_mem _ hq) (i, e) hpmem
        simp [hd1, h1, h2, htfree q (List.mem_cons_of_mem _ hq)]
      obtain ⟨d2, heq, hstaged, huntouched⟩ :=
        ih d1 ((e.oldName, t) :: moved)
          (fun q hq => by
            rw [hd1old q hq]
            exact hex q (List.mem_cons_of_mem _ hq))
          hold1
          hd1temp
          (fun a ha b hb =>
            htold a (List.mem_cons_of_mem _ ha) b (List.mem_cons_of_mem _ hb))
          (fun a ha b hb hne =>
            htdist a (List.mem_cons_of_mem _ ha) b (List.mem_cons_of_mem _ hb) hne)
      refine ⟨d2, ?_, ?_, ?_⟩
      · have hlist :
            ((((i, e) :: rest).filter (fun q => decide (q.2.oldName ∈ targets))).map
              (fun q => (q.2.oldName, tempName q.1 q.2.oldName))).reverse ++ moved
            = ((rest.filter (fun q => decide (q.2.oldName ∈ targets))).map
              (fun q => (q.2.oldName, tempName q.1 q.2.oldName))).reverse
                ++ ((e.oldName, t) :: moved) := by
          rw [List.filter_cons, if_pos (decide_eq_true hst)]
          simp [List.reverse_cons, List.append_assoc]
        rw [hlist]
        simp only [stagePhase]
        rw [if_pos hst, hren]
        exact heq
      · intro q hq hqst
        rcases List.mem_cons.mp hq with rfl | hq2
        · constructor
          · have hall : ∀ r ∈ rest, r.2.oldName ∈ targets →
                t ≠ tempName r.1 r.2.oldName ∧ t ≠ r.2.oldName := by
              intro r hr _
              exact ⟨htdist (i, e) hpmem r (List.mem_cons_of_mem _ hr)
                  (fun hx => hqne r hr hx.symm),
                htold (i, e) hpmem r (List.mem_cons_of_mem _ hr)⟩
            rw [huntouched t hall]
            simp [hd1, hc]
          · have hall : ∀ r ∈ rest, r.2.oldName ∈ targets →
                e.oldName ≠ tempName r.1 r.2.oldName ∧ e.oldName ≠ r.2.oldName := by
              intro r hr _
              refine ⟨fun hx => htold r (List.mem_cons_of_mem _ hr) (i, e) hpmem hx.symm, ?_⟩
              exact fun hx => hold0 (hx ▸ List.mem_map_of_mem _ hr)
            rw [huntouched e.oldName hall]
            simp [hd1, htne.symm]
        · obtain ⟨hA, hB⟩ := hstaged q hq2 hqst
          exact ⟨by rw [hA, hd1old q hq2], hB⟩
      · intro n hall
        have hall2 : ∀ r ∈ rest, r.2.oldName ∈ targets →
            n ≠ tempName r.1 r.2.oldName ∧ n ≠ r.2.oldName :=
          fun r hr hrst => hall r (List.mem_cons_of_mem _ hr) hrst
        rw [huntouched n hall2]
        obtain ⟨hn1, hn2⟩ := hall (i, e) hpmem hst
        simp [hd1, hn1, hn2]
    · obtain ⟨d2, heq, hstaged, huntouched⟩ :=
        ih d moved
          (fun q hq => hex q (List.mem_cons_of_mem _ hq))
          hold1
          (fun q hq => htfree q (List.mem_cons_of_mem _ hq))
          (fun a ha b hb =>
            htold a (List.mem_cons_of_mem _ ha) b (List.mem_cons_of_mem _ hb))
          (fun a ha b hb hne =>
            htdist a (List.mem_cons_of_mem _ ha) b (List.mem_cons_of_mem _ hb) hne)
      refine ⟨d2, ?_, ?_, ?_⟩
      · have hlist :
            ((((i, e) :: rest).filter (fun q => decide (q.2.oldName ∈ targets))).map
              (fun q => (q.2.oldName, tempName q.1 q.2.oldName))).reverse ++ moved
            = ((rest.filter (fun q => decide (q.2.oldName ∈ targets))).map
              (fun q => (q.2.oldName, tempName q.1 q.2.oldName))).reverse ++ moved := by
          rw [List.filter_cons, if_neg]
          simp [hst]
        rw [hlist]
        simp only [stagePhase]
        rw [if_neg hst]
        exact heq
      · intro q hq hqst
        rcases List.mem_cons.mp hq with rfl | hq2
        · exact absurd hqst hst
        · exact hstaged q hq2 hqst
      · intro n hall
        exact huntouched n
          (fun r hr hrst => hall r (List.mem_cons_of_mem _ hr) hrst)

/-! ### Association-list lookup lemmas -/

lemma lookup_eq_some_of_nodup :
    ∀ (l : List (Name × Name)), (l.map Prod.fst).Nodup →
      ∀ {a b : Name}, (a, b) ∈ l → l.lookup a = some b := by
  intro l
  induction l with
  | nil => intro _ a b h; simp at h
  | cons p t ih =>
    intro hnd a b hm
    obtain ⟨k, v⟩ := p
    rw [List.map_cons, List.nodup_cons] at hnd
    rcases List.mem_cons.mp hm with he | hm2
    · injection he with h1 h2
      subst h1
      subst h2
      simp [List.lookup_cons]
    · have hak : a ≠ k := by
        intro hx
        subst hx
        exact hnd.1 (List.mem_map.mpr ⟨(a, b), hm2, rfl⟩)
      rw [List.lookup_cons]
      rw [show (a == k) = false from beq_eq_false_iff_ne.mpr hak]
      exact ih hnd.2 hm2

lemma lookup_cons_ne {β : Type} {v : β} {t : List (Name × β)} {a k : Name} (h : a ≠ k) :
    List.lookup a ((k, v) :: t) = List.lookup a t := by
  rw [List.lookup_cons, show (a == k) = false from beq_eq_false_iff_ne.mpr h]

lemma lookup_eq_none_of_not_mem :
    ∀ (l : List (Name × Name)) {a : Name}, a ∉ l.map Prod.fst → l.lookup a = none := by
  intro l
  induction l with
  | nil => intro a _; rfl
  | cons p t ih =>
    intro a h
    obtain ⟨k, v⟩ := p
    simp only [List.map_cons, List.mem_cons] at h
    push_neg at h
    rw [List.lookup_cons]
    rw [show (a == k) = false from beq_eq_false_iff_ne.mpr h.1]
    exact ih h.2

/-- When no old name is also a target, phase 1 does nothing. -/
lemma stagePhase_noop (targets : List Name) :
    ∀ (l : List (Nat × RenameEntry)) (d : Dir) (moved : List (Name × Name)),
      (∀ p ∈ l, p.2.oldName ∉ targets) →
      stagePhase targets l d moved = some (d, moved) := by
  intro l
  induction l with
  | nil => intro d moved _; rfl
  | cons p rest ih =>
    intro d moved h
    obtain ⟨i, e⟩ := p
    simp only [stagePhase]
    rw [if_neg (h (i, e) (List.mem_cons_self _ _))]
    exact ih d moved (fun q hq => h q (List.mem_cons_of_mem _ hq))

/-! ### The two-phase executor realises permutations -/

/-- C2 (amended): given the batch [(a.txt, b.txt), (b.txt, a.txt)] on a
directory holding exactly a.txt and b.txt, applyRenames succeeds and swaps
the two files (see the witness); in general, for every batch with pairwise
distinct old names, pairwise distinct new names, every old name present,
every new name either absent from the directory or itself an old name, and
no directory or target name starting with the staging marker, the
two-phase stage-then-finalize algorithm succeeds, gives every target the
content of its source, removes sources that are not reused as targets,
leaves every other name untouched, and loses no file. -/
theorem applyRenames_realizes_permutations (d : Dir) (R : List RenameEntry)
    (hOld : (R.map RenameEntry.oldName).Nodup)
    (hNew : (R.map RenameEntry.newName).Nodup)
    (hEx : ∀ e ∈ R, (d e.oldName).isSome)
    (hFresh : ∀ e ∈ R, d e.newName = none ∨ e.newName ∈ R.map RenameEntry.oldName)
    (hHygD : ∀ n, (d n).isSome → noRnm n)
    (hHygNew : ∀ e ∈ R, noRnm e.newName) :
    ∃ d2, applyRenames d R = some d2
      ∧ (∀ e ∈ R, d2 e.newName = d e.oldName)
      ∧ (∀ n, n ∉ R.map RenameEntry.newName → n ∈ R.map RenameEntry.oldName → d2 n = none)
      ∧ (∀ n, n ∉ R.map RenameEntry.newName → n ∉ R.map RenameEntry.oldName → d2 n = d n)
      ∧ (∀ n, (d n).isSome → ∃ m, d2 m = d n) := by
  by_cases hRnil : R = []
  · subst hRnil
    exact ⟨d, rfl, by simp, by simp, fun n _ _ => rfl, fun n _ => ⟨n, rfl⟩⟩
  · have hsnd : R.enum.map Prod.snd = R := List.enum_map_snd R
    have hmemE : ∀ p ∈ R.enum, p.2 ∈ R := by
      intro p hp
      have := List.mem_map_of_mem Prod.snd hp
      rwa [hsnd] at this
    have holdsE : R.enum.map (fun p => p.2.oldName) = R.map RenameEntry.oldName := by
      conv_rhs => rw [← hsnd]
      rw [List.map_map]
      rfl
    have holdE_nodup : (R.enum.map (fun p => p.2.oldName)).Nodup := by
      rw [holdsE]
      exact hOld
    have hinjR : ∀ ⦃x⦄, x ∈ R → ∀ ⦃y⦄, y ∈ R → x.oldName = y.oldName → x = y :=
      List.inj_on_of_nodup_map hOld
    have hinjE : ∀ ⦃p⦄, p ∈ R.enum → ∀ ⦃q⦄, q ∈ R.enum → p.2.oldName = q.2.oldName → p = q :=
      List.inj_on_of_nodup_map holdE_nodup
    have hnoRnmOld : ∀ e ∈ R, noRnm e.oldName := fun e he => hHygD _ (hEx e he)
    obtain ⟨d1, hstageEq, hstaged, huntouched⟩ :=
      stagePhase_spec (R.map RenameEntry.newName) R.enum d []
        (fun p hp => hEx p.2 (hmemE p hp))
        holdE_nodup
        (fun p _ => by
          rw [← Option.not_isSome_iff_eq_none]
          intro hx
          exact hHygD _ hx (rnmMark_prefix_tempName _ _))
        (fun p _ q hq => tempName_ne_of_noRnm (hnoRnmOld q.2 (hmemE q hq)) _ _)
        (fun p hp q hq hne hx => hne (hinjE hp hq (tempName_inj_name hx)))
    rw [List.append_nil] at hstageEq
    set M := ((R.enum.filter
        (fun q => decide (q.2.oldName ∈ R.map RenameEntry.newName))).map
        (fun q => (q.2.oldName, tempName q.1 q.2.oldName))).reverse with hM
    have hkeys : M.map Prod.fst
        = ((R.enum.filter
            (fun q => decide (q.2.oldName ∈ R.map RenameEntry.newName))).map
            (fun q => q.2.oldName)).reverse := by
      rw [hM, List.map_reverse, List.map_map]
      rfl
    have hkeysNodup : (M.map Prod.fst).Nodup := by
      rw [hkeys, List.nodup_reverse]
      exact List.Nodup.sublist ((List.filter_sublist R.enum).map _) holdE_nodup
    have hlift : ∀ e ∈ R, ∃ p, p ∈ R.enum ∧ p.2 = e := by
      intro e he
      have : e ∈ R.enum.map Prod.snd := by
        rw [hsnd]
        exact he
      obtain ⟨p, hp, hpe⟩ := List.mem_map.mp this
      exact ⟨p, hp, hpe⟩
    have hsrcStag : ∀ p ∈ R.enum, p.2.oldName ∈ R.map RenameEntry.newName →
        effSrc M p.2 = tempName p.1 p.2.oldName := by
      intro p hp hst
      have hmem2 : (p.2.oldName, tempName p.1 p.2.oldName) ∈ M := by
        rw [hM, List.mem_reverse]
        exact List.mem_map_of_mem _ (List.mem_filter.mpr ⟨hp, decide_eq_true hst⟩)
      unfold effSrc
      rw [lookup_eq_some_of_nodup M hkeysNodup hmem2]
      rfl
    have hsrcUnstag : ∀ e ∈ R, e.oldName ∉ R.map RenameEntry.newName →
        effSrc M e = e.oldName := by
      intro e he hst
      unfold effSrc
      have hnk : e.oldName ∉ M.map Prod.fst := by
        rw [hkeys, List.mem_reverse]
        intro hx
        obtain ⟨q, hq, hqe⟩ := List.mem_map.mp hx
        obtain ⟨hqE, hqdec⟩ := List.mem_filter.mp hq
        have hq2 : q.2 = e := hinjR (hmemE q hqE) he hqe
        have hq3 := of_decide_eq_true hqdec
        rw [hq2] at hq3
        exact hst hq3
      rw [lookup_eq_none_of_not_mem M hnk]
      rfl
    have hval : ∀ e ∈ R, d1 (effSrc M e) = d e.oldName := by
      intro e he
      by_cases hst : e.oldName ∈ R.map RenameEntry.newName
      · obtain ⟨p, hp, hpe⟩ := hlift e he
        subst hpe
        rw [hsrcStag p hp hst]
        exact (hstaged p hp hst).1
      · rw [hsrcUnstag e he hst]
        apply huntouched
        intro r hr hrst
        constructor
        · exact fun hx => (hnoRnmOld e he) (hx ▸ rnmMark_prefix_tempName _ _)
        · intro hx
          have h2 : r.2 = e := hinjR (hmemE r hr) he hx.symm
          rw [h2] at hrst
          exact hst hrst
    have hRnodup : R.Nodup := hOld.of_map
    have hsrcInj : ∀ e ∈ R, ∀ f ∈ R, effSrc M e = effSrc M f → e = f := by
      intro e he f hf hx
      by_cases hse : e.oldName ∈ R.map RenameEntry.newName
        <;> by_cases hsf : f.oldName ∈ R.map RenameEntry.newName
      · obtain ⟨p, hp, hpe⟩ := hlift e he
        obtain ⟨q, hq, hqe⟩ := hlift f hf
        subst hpe
        subst hqe
        rw [hsrcStag p hp hse, hsrcStag q hq hsf] at hx
        exact congrArg Prod.snd (hinjE hp hq (tempName_inj_name hx))
      · obtain ⟨p, hp, hpe⟩ := hlift e he
        subst hpe
        rw [hsrcStag p hp hse, hsrcUnstag f hf hsf] at hx
        exact absurd hx (tempName_ne_of_noRnm (hnoRnmOld f hf) _ _)
      · obtain ⟨q, hq, hqe⟩ := hlift f hf
        subst hqe
        rw [hsrcUnstag e he hse, hsrcStag q hq hsf] at hx
        exact absurd hx.symm (tempName_ne_of_noRnm (hnoRnmOld e he) _ _)
      · rw [hsrcUnstag e he hse, hsrcUnstag f hf hsf] at hx
        exact hinjR he hf hx
    have hsrcNodup : (R.map (effSrc M)).Nodup := List.Nodup.map_on hsrcInj hRnodup
    have hdisj : ∀ e ∈ R, ∀ f ∈ R, effSrc M e ≠ f.newName := by
      intro e he f hf
      by_cases hst : e.oldName ∈ R.map RenameEntry.newName
      · obtain ⟨p, hp, hpe⟩ := hlift e he
        subst hpe
        rw [hsrcStag p hp hst]
        exact tempName_ne_of_noRnm (hHygNew f hf) _ _
      · rw [hsrcUnstag e he hst]
        intro hx
        exact hst (hx ▸ List.mem_map_of_mem RenameEntry.newName hf)
    obtain ⟨d2, hfinEq, hQ1, hQ2, hQ3⟩ :=
      finalizePhase_spec M R d1 hsrcNodup hNew hdisj
        (fun e he => by
          rw [hval e he]
          exact hEx e he)
    have happly : applyRenames d R = some d2 := by
      unfold applyRenames
      rw [if_neg hRnil, hstageEq]
      exact hfinEq
    have hc2 : ∀ e ∈ R, d2 e.newName = d e.oldName := by
      intro e he
      rw [hQ1 e he, hval e he]
    have hc3 : ∀ n, n ∉ R.map RenameEntry.newName → n ∈ R.map RenameEntry.oldName →
        d2 n = none := by
      intro n hn1 hn2
      obtain ⟨e, he, hne⟩ := List.mem_map.mp hn2
      by_cases hsm : n ∈ R.map (effSrc M)
      · exact hQ3 n hn1 hsm
      · rw [hQ2 n hn1 hsm]
        by_cases hst : e.oldName ∈ R.map RenameEntry.newName
        · obtain ⟨p, hp, hpe⟩ := hlift e he
          subst hpe
          rw [← hne]
          exact (hstaged p hp hst).2
        · exfalso
          apply hsm
          rw [← hne, ← hsrcUnstag e he hst]
          exact List.mem_map_of_mem (effSrc M) he
    have hc4 : ∀ n, n ∉ R.map RenameEntry.newName → n ∉ R.map RenameEntry.oldName →
        d2 n = d n := by
      intro n hn1 hn2
      by_cases hsm : n ∈ R.map (effSrc M)
      · rw [hQ3 n hn1 hsm]
        obtain ⟨e, he, hne⟩ := List.mem_map.mp hsm
        by_cases hst : e.oldName ∈ R.map RenameEntry.newName
        · obtain ⟨p, hp, hpe⟩ := hlift e he
          subst hpe
          rw [hsrcStag p hp hst] at hne
          have hdn : d n = none := by
            rw [← Option.not_isSome_iff_eq_none]
            intro hx
            exact hHygD n hx (hne ▸ rnmMark_prefix_tempName p.1 p.2.oldName)
          exact hdn.symm
        · rw [hsrcUnstag e he hst] at hne
          exact absurd (hne ▸ List.mem_map_of_mem RenameEntry.oldName he) hn2
      · rw [hQ2 n hn1 hsm]
        apply huntouched
        intro r hr hrst
        constructor
        · intro hx
          apply hsm
          rw [hx, ← hsrcStag r hr hrst]
          exact List.mem_map_of_mem (effSrc M) (hmemE r hr)
        · intro hx
          apply hn2
          rw [hx]
          exact List.mem_map_of_mem RenameEntry.oldName (hmemE r hr)
    have hc5 : ∀ n, (d n).isSome → ∃ m, d2 m = d n := by
      intro n hn
      by_cases holdn : n ∈ R.map RenameEntry.oldName
      · obtain ⟨e, he, hne⟩ := List.mem_map.mp holdn
        exact ⟨e.newName, by rw [hc2 e he, hne]⟩
      · have hnewn : n ∉ R.map RenameEntry.newName := by
          intro hx
          obtain ⟨f, hf, hfe⟩ := List.mem_map.mp hx
          rcases hFresh f hf with hnone | hinold
          · rw [hfe] at hnone
            rw [hnone] at hn
            simp at hn
          · rw [hfe] at hinold
            exact holdn hinold
        exact ⟨n, hc4 n hnewn holdn⟩
    exact ⟨d2, happly, hc2, hc3, hc4, hc5⟩

/-! ### Planner loop lemmas -/

lemma planLoop_ok_props (sub : Name → Name) (fileSet : List Name) :
    ∀ (files seen : List Name) (acc B : List RenameEntry),
    planLoop sub fileSet files seen acc = .ok B →
    ∃ L, B = acc.reverse ++ L
      ∧ (∀ e ∈ L, e.newName = sub e.oldName ∧ e.newName ≠ [] ∧ e.newName ∉ fileSet
          ∧ e.newName ∉ seen ∧ e.oldName ≠ e.newName)
      ∧ (L.map RenameEntry.newName).Nodup
      ∧ (L.map RenameEntry.oldName).Sublist files := by
  intro files
  induction files with
  | nil =>
    intro seen acc B h
    simp only [planLoop] at h
    injection h with hB
    refine ⟨[], by rw [← hB]; simp, by simp, by simp, by simp⟩
  | cons old rest ih =>
    intro seen acc B h
    simp only [planLoop] at h
    by_cases h1 : sub old = []
    · rw [if_pos h1] at h
      exact Except.noConfusion h
    · rw [if_neg h1] at h
      by_cases h2 : sub old ∈ seen
      · rw [if_pos h2] at h
        exact Except.noConfusion h
      · rw [if_neg h2] at h
        by_cases h3 : sub old ≠ old ∧ sub old ∈ fileSet
        · rw [if_pos h3] at h
          exact Except.noConfusion h
        · rw [if_neg h3] at h
          by_cases h4 : sub old ≠ old
          · rw [if_pos h4] at h
            obtain ⟨L, hB, hprops, hnodup, hsub⟩ :=
              ih (sub old :: seen) (⟨old, sub old⟩ :: acc) B h
            refine ⟨⟨old, sub old⟩ :: L, ?_, ?_, ?_, ?_⟩
            · rw [hB]
              simp
            · intro e he
              rcases List.mem_cons.mp he with rfl | he2
              · exact ⟨rfl, h1, fun hb => h3 ⟨h4, hb⟩, h2, fun hx => h4 hx.symm⟩
              · obtain ⟨ha, hb, hc, hd, hee⟩ := hprops e he2
                exact ⟨ha, hb, hc, fun hx => hd (List.mem_cons_of_mem _ hx), hee⟩
            · rw [List.map_cons, List.nodup_cons]
              refine ⟨?_, hnodup⟩
              intro hx
              obtain ⟨e, he, hee⟩ := List.mem_map.mp hx
              exact (hprops e he).2.2.2.1 (hee ▸ List.mem_cons_self _ _)
            · rw [List.map_cons]
              exact List.cons_sublist_cons.mpr hsub
          · rw [if_neg h4] at h
            obtain ⟨L, hB, hprops, hnodup, hsub⟩ := ih (sub old :: seen) acc B h
            refine ⟨L, hB, ?_, hnodup, hsub.cons _⟩
            intro e he
            obtain ⟨ha, hb, hc, hd, hee⟩ := hprops e he
            exact ⟨ha, hb, hc, fun hx => hd (List.mem_cons_of_mem _ hx), hee⟩

lemma planLoop_error_patternErr (sub : Name → Name) (fileSet : List Name) :
    ∀ (files seen : List Name) (acc : List RenameEntry) (err : RenameError),
    planLoop sub fileSet files seen acc = .error err → err.isPatternErr = false := by
  intro files
  induction files with
  | nil =>
    intro seen acc err h
    simp only [planLoop] at h
    exact Except.noConfusion h
  | cons old rest ih =>
    intro seen acc err h
    simp only [planLoop] at h
    by_cases h1 : sub old = []
    · rw [if_pos h1] at h
      injection h with he
      rw [← he]
      rfl
    · rw [if_neg h1] at h
      by_cases h2 : sub old ∈ seen
      · rw [if_pos h2] at h
        injection h with he
        rw [← he]
        rfl
      · rw [if_neg h2] at h
        by_cases h3 : sub old ≠ old ∧ sub old ∈ fileSet
        · rw [if_pos h3] at h
          injection h with he
          rw [← he]
          rfl
        · rw [if_neg h3] at h
          exact ih _ _ _ h

/-! ### Escaped literals always parse to literal atoms -/

lemma mem_unsupported_mem_meta {c : Char} (h : c ∈ unsupportedChars) :
    c ∈ regexMetaChars := by
  fin_cases h <;> decide

lemma meta_ne_d {c : Char} (h : c ∈ regexMetaChars) : c ≠ 'd' := by
  fin_cases h <;> decide

lemma parseRegexFuel_nil (fuel : Nat) : parseRegexFuel fuel [] = some [] := by
  cases fuel <;> rfl

lemma parseRegexFuel_escape :
    ∀ (s : Name) (fuel : Nat), (escapeRegexLiteral s).length ≤ fuel →
      parseRegexFuel fuel (escapeRegexLiteral s) = some (s.map Atom.lit) := by
  intro s
  induction s with
  | nil =>
    intro fuel _
    rw [show escapeRegexLiteral [] = [] from rfl, parseRegexFuel_nil]
    rfl
  | cons c s2 ih =>
    intro fuel hfuel
    by_cases hm : c ∈ regexMetaChars
    · have hesc : escapeRegexLiteral (c :: s2) = '\\' :: c :: escapeRegexLiteral s2 := by
        simp only [escapeRegexLiteral, if_pos hm]
      rw [hesc] at hfuel ⊢
      cases fuel with
      | zero => simp at hfuel
      | succ f =>
        simp only [parseRegexFuel, if_pos rfl]
        rw [ih f (by simp at hfuel; omega)]
        rw [show escapedAtom c = Atom.lit c from by
          simp only [escapedAtom, if_neg (meta_ne_d hm)]]
        rfl
    · have hesc : escapeRegexLiteral (c :: s2) = c :: escapeRegexLiteral s2 := by
        simp only [escapeRegexLiteral, if_neg hm]
      have hc1 : ¬(c = '\\') := fun hx => hm (hx ▸ (by decide : '\\' ∈ regexMetaChars))
      have hc2 : ¬(c = '[') := fun hx => hm (hx ▸ (by decide : '[' ∈ regexMetaChars))
      have hc3 : ¬(c = '.') := fun hx => hm (hx ▸ (by decide : '.' ∈ regexMetaChars))
      have hc4 : ¬(c ∈ unsupportedChars) := fun hx => hm (mem_unsupported_mem_meta hx)
      rw [hesc] at hfuel ⊢
      cases fuel with
      | zero => simp at hfuel
      | succ f =>
        simp only [parseRegexFuel, if_neg hc1, if_neg hc2, if_neg hc3, if_neg hc4]
        rw [ih f (by simp at hfuel; omega)]
        rfl

lemma parseRegex_escape (s : Name) :
    parseRegex (escapeRegexLiteral s) = some (s.map Atom.lit) :=
  parseRegexFuel_escape s _ le_rfl

/-! ### Replacement expansion lemmas -/

lemma expandReplacement_no_dollar (matched before after : Name) :
    ∀ rep : Name, '$' ∉ rep → expandReplacement matched before after rep = rep := by
  intro rep
  induction rep with
  | nil => intro _; rfl
  | cons c rest ih =>
    intro h
    have hc : ¬(c = '$') := fun hx => h (hx ▸ List.mem_cons_self _ _)
    unfold expandReplacement at ih ⊢
    simp only [expandReplacementGo, if_neg hc]
    rw [ih (fun hx => h (List.mem_cons_of_mem _ hx))]

lemma replaceFirst_empty_pat (rep : Name) (c : Char) (rest : Name) :
    replaceFirst [] rep (c :: rest)
      = expandReplacement [] [] (c :: rest) rep ++ c :: rest := by
  show replaceFirstGo [] rep [] (c :: rest) = _
  simp [replaceFirstGo, matchesPrefix]

/-! ### Unfolding equations for computeNewNames -/

lemma computeNewNames_regex_eq (files : List Name) (find replace : Name) :
    computeNewNames files find replace true
      = match parseRegex find with
        | none => .error (.invalidRegex find)
        | some pat => planLoop (jsReplace false pat replace) files files [] [] := rfl

lemma computeNewNames_literal_eq (files : List Name) (find replace : Name) :
    computeNewNames files find replace false
      = if find = [] then .error .emptyFind
        else match parseRegex (escapeRegexLiteral find) with
          | none => .error (.invalidRegex (escapeRegexLiteral find))
          | some pat => planLoop (jsReplace true pat replace) files files [] [] := rfl

/-! ### Properties of successful plans -/

lemma computeNewNames_ok_props {files : List Name} {find replace : Name} {isRegex : Bool}
    {B : List RenameEntry} (h : computeNewNames files find replace isRegex = .ok B) :
    (∀ e ∈ B, e.newName ≠ [] ∧ e.newName ∉ files ∧ e.oldName ≠ e.newName)
    ∧ (B.map RenameEntry.newName).Nodup
    ∧ (B.map RenameEntry.oldName).Sublist files := by
  have hmain : ∃ sub, planLoop sub files files [] [] = .ok B := by
    cases isRegex with
    | true =>
      rw [computeNewNames_regex_eq] at h
      cases hp : parseRegex find with
      | none =>
        rw [hp] at h
        exact Except.noConfusion h
      | some pat =>
        rw [hp] at h
        exact ⟨_, h⟩
    | false =>
      rw [computeNewNames_literal_eq] at h
      by_cases hf : find = []
      · rw [if_pos hf] at h
        exact Except.noConfusion h
      · rw [if_neg hf, parseRegex_escape find] at h
        exact ⟨_, h⟩
  obtain ⟨sub, hpl⟩ := hmain
  obtain ⟨L, hB, hprops, hnodup, hsubl⟩ := planLoop_ok_props sub files files [] [] B hpl
  rw [show ([] : List RenameEntry).reverse ++ L = L from by simp] at hB
  subst hB
  exact ⟨fun e he => ⟨(hprops e he).2.1, (hprops e he).2.2.1, (hprops e he).2.2.2.2⟩,
    hnodup, hsubl⟩

lemma computeNewNames_no_staging {files : List Name} {find replace : Name} {isRegex : Bool}
    {B : List RenameEntry} (h : computeNewNames files find replace isRegex = .ok B) :
    ∀ d : Dir, applyRenames d B = finalizePhase B [] d := by
  obtain ⟨hprops, _, hsubl⟩ := computeNewNames_ok_props h
  intro d
  by_cases hB : B = []
  · subst hB
    rfl
  · have hno : ∀ p ∈ B.enum, p.2.oldName ∉ B.map RenameEntry.newName := by
      intro p hp hin
      have hpB : p.2 ∈ B := by
        have := List.mem_map_of_mem Prod.snd hp
        rwa [List.enum_map_snd] at this
      obtain ⟨f, hf, hfe⟩ := List.mem_map.mp hin
      have h1 : p.2.oldName ∈ files := hsubl.subset (List.mem_map_of_mem _ hpB)
      rw [← hfe] at h1
      exact (hprops f hf).2.1 h1
    unfold applyRenames
    rw [if_neg hB, stagePhase_noop _ B.enum d [] hno]

/-! ### Claim theorems -/

/-- C1: the planner rejects the chain xxa.txt, xa.txt renamed to
xa.txt, a.txt respectively.  The second conjunct shows xa.txt is itself
renamed away, yet the first conjunct shows the overwrite check still
throws on the target xa.txt, so a batch whose target equals a source that
is itself renamed is rejected, not accepted. -/
theorem computeNewNames_rejects_chain :
    computeNewNames [nm "xxa.txt", nm "xa.txt"] (nm "x") (nm "") true
      = .error (.overwrite (nm "xa.txt"))
    ∧ computeNewNames [nm "xa.txt"] (nm "x") (nm "") true
      = .ok [⟨nm "xa.txt", nm "a.txt"⟩] :=
  ⟨rfl, rfl⟩

/-- C3: in regex mode the pattern is compiled without the global flag, so
only the first match is replaced: on the file whose name is bracket, a,
bracket, dot txt, with the bracket class as find and empty replacement,
computeNewNames keeps the closing bracket, whereas global substitution
with the same compiled pattern, as the repository test expects, would
remove both brackets. -/
theorem computeNewNames_regex_first_match_only :
    computeNewNames [nm "[a].txt"] (nm "[\\[\\]]") (nm "") true
      = .ok [⟨nm "[a].txt", nm "a].txt"⟩]
    ∧ (parseRegex (nm "[\\[\\]]")).map (fun p => replaceAll p (nm "") (nm "[a].txt"))
      = some (nm "a.txt") :=
  ⟨rfl, rfl⟩

/-- C6: whenever computeNewNames succeeds, every newName in the returned
batch is nonempty and the newName values are pairwise distinct. -/
theorem computeNewNames_newNames_nonempty_nodup
    (files : List Name) (find replace : Name) (isRegex : Bool) (B : List RenameEntry)
    (h : computeNewNames files find replace isRegex = .ok B) :
    (∀ e ∈ B, e.newName ≠ []) ∧ (B.map RenameEntry.newName).Nodup := by
  obtain ⟨hprops, hnodup, _⟩ := computeNewNames_ok_props h
  exact ⟨fun e he => (hprops e he).1, hnodup⟩

/-- C6 witness: the theorem applied to a concrete successful plan. -/
theorem computeNewNames_newNames_nonempty_nodup_witness :
    (∀ e ∈ [(⟨nm "ab.txt", nm "b.txt"⟩ : RenameEntry)], e.newName ≠ [])
    ∧ (([(⟨nm "ab.txt", nm "b.txt"⟩ : RenameEntry)].map RenameEntry.newName)).Nodup :=
  computeNewNames_newNames_nonempty_nodup [nm "ab.txt"] (nm "a") (nm "") false
    [⟨nm "ab.txt", nm "b.txt"⟩] (by rfl)

/-- C7: computeNewNames fails with a pattern-kind error (InvalidPattern)
exactly when the find pattern does not compile in regex mode or is empty
in literal mode; the planner is a pure function returning either one full
batch or one error, so failures mutate nothing and surface no partial
batch, and the concrete invalid pattern consisting of an unterminated
class fails as claimed. -/
theorem computeNewNames_invalidPattern_iff :
    (∀ (files : List Name) (find replace : Name) (isRegex : Bool),
      resultPatternErr (computeNewNames files find replace isRegex)
        = (if isRegex then (parseRegex find).isNone else decide (find = [])))
    ∧ computeNewNames [nm "a.txt"] (nm "[invalid") (nm "") true
        = .error (.invalidRegex (nm "[invalid")) := by
  constructor
  · intro files find replace isRegex
    cases isRegex with
    | true =>
      rw [computeNewNames_regex_eq]
      cases hp : parseRegex find with
      | none => rfl
      | some pat =>
        show resultPatternErr (planLoop (jsReplace false pat replace) files files [] [])
          = false
        cases hres : planLoop (jsReplace false pat replace) files files [] [] with
        | ok B => rfl
        | error e => exact planLoop_error_patternErr _ _ _ _ _ _ hres
    | false =>
      by_cases hf : find = []
      · subst hf
        rfl
      · rw [computeNewNames_literal_eq, if_neg hf, parseRegex_escape find,
          show (if (false : Bool) then (parseRegex find).isNone else decide (find = []))
            = decide (find = []) from rfl,
          decide_eq_false hf]
        show resultPatternErr
          (planLoop (jsReplace true (find.map Atom.lit) replace) files files [] []) = false
        cases hres : planLoop (jsReplace true (find.map Atom.lit) replace) files files [] [] with
        | ok B => rfl
        | error e => exact planLoop_error_patternErr _ _ _ _ _ _ hres
  · rfl

/-- C8: literal mode escapes every regex metacharacter, so an escaped
literal always compiles to the sequence of literal atoms of the original
text (first conjunct, for all strings), and globally replacing photo_
with img_ over photo_1.jpg, photo_2.jpg yields exactly the two expected
entries in order (second conjunct). -/
theorem computeNewNames_literal_escape_global :
    (∀ s : Name, parseRegex (escapeRegexLiteral s) = some (s.map Atom.lit))
    ∧ computeNewNames [nm "photo_1.jpg", nm "photo_2.jpg"] (nm "photo_") (nm "img_") false
        = .ok [⟨nm "photo_1.jpg", nm "img_1.jpg"⟩, ⟨nm "photo_2.jpg", nm "img_2.jpg"⟩] :=
  ⟨parseRegex_escape, by rfl⟩

/-- C10 counterexample: with the empty find pattern and the replacement
text dollar ampersand, the program substitutes the matched empty text, so
the candidate equals the original name and the entry is dropped, although
the replacement string is nonempty and prepending it verbatim would have
changed the name. -/
theorem computeNewNames_empty_find_dollar_amp :
    computeNewNames [nm "a.txt"] [] (nm "$&") true = .ok []
    ∧ nm "$&" ≠ []
    ∧ nm "$&" ++ nm "a.txt" ≠ nm "a.txt" :=
  ⟨rfl, by decide, by decide⟩

/-- C10 (amended): in regex mode the empty find pattern is accepted, never
producing a pattern-kind error (first conjunct); on a single nonempty file
name the candidate is the dollar-expanded replacement, taken against the
empty match at position 0, prepended to the name, the entry being kept
exactly when that candidate differs from the name (second conjunct); in
particular, for a replacement text without a dollar character the
candidate is the replacement prepended verbatim and the entry is kept
exactly when the replacement is nonempty (third conjunct). -/
theorem computeNewNames_empty_regex_find_expand :
    (∀ (files : List Name) (replace : Name),
      resultPatternErr (computeNewNames files [] replace true) = false)
    ∧ (∀ (name replace : Name), name ≠ [] →
        computeNewNames [name] [] replace true
          = .ok (if expandReplacement [] [] name replace ++ name = name then []
              else [⟨name, expandReplacement [] [] name replace ++ name⟩]))
    ∧ (∀ (name replace : Name), name ≠ [] → '$' ∉ replace →
        computeNewNames [name] [] replace true
          = .ok (if replace = [] then [] else [⟨name, replace ++ name⟩])) := by
  have hB : ∀ (name replace : Name), name ≠ [] →
      computeNewNames [name] [] replace true
        = .ok (if expandReplacement [] [] name replace ++ name = name then []
            else [⟨name, expandReplacement [] [] name replace ++ name⟩]) := by
    intro name replace hname
    rw [computeNewNames_regex_eq]
    show planLoop (jsReplace false [] replace) [name] [name] [] []
      = .ok (if expandReplacement [] [] name replace ++ name = name then []
          else [⟨name, expandReplacement [] [] name replace ++ name⟩])
    cases name with
    | nil => exact absurd rfl hname
    | cons c rest =>
      have hsub : jsReplace false ([] : Pattern) replace (c :: rest)
          = expandReplacement [] [] (c :: rest) replace ++ c :: rest :=
        replaceFirst_empty_pat replace c rest
      have hnonnil : expandReplacement [] [] (c :: rest) replace ++ c :: rest ≠ [] := by
        simp
      simp only [planLoop, hsub]
      rw [if_neg hnonnil, if_neg (List.not_mem_nil _)]
      rw [if_neg (show ¬(expandReplacement [] [] (c :: rest) replace ++ c :: rest ≠ c :: rest
          ∧ expandReplacement [] [] (c :: rest) replace ++ c :: rest ∈ [c :: rest]) from by
        intro hx
        exact hx.1 (List.mem_singleton.mp hx.2))]
      by_cases hc : expandReplacement [] [] (c :: rest) replace ++ c :: rest = c :: rest
      · rw [if_neg (fun hx => hx hc), if_pos hc]
        rfl
      · rw [if_pos hc, if_neg hc]
        rfl
  refine ⟨?_, hB, ?_⟩
  · intro files replace
    rw [computeNewNames_regex_eq]
    show resultPatternErr (planLoop (jsReplace false [] replace) files files [] []) = false
    cases hres : planLoop (jsReplace false [] replace) files files [] [] with
    | ok B => rfl
    | error e => exact planLoop_error_patternErr _ _ _ _ _ _ hres
  · intro name replace hname hd
    rw [hB name replace hname, expandReplacement_no_dollar [] [] name replace hd]
    by_cases hrep : replace = []
    · subst hrep
      simp
    · rw [if_neg (show ¬(replace ++ name = name) from
          fun hx => hrep (List.append_left_eq_self.mp hx))]
      rw [if_neg hrep]

/-- C10 witness: the dollar-free conjunct applied at a concrete name and
replacement. -/
theorem computeNewNames_empty_regex_find_expand_witness :
    computeNewNames [nm "a.txt"] [] (nm "x") true
      = .ok [⟨nm "a.txt", nm "x" ++ nm "a.txt"⟩] := by
  have h := computeNewNames_empty_regex_find_expand.2.2 (nm "a.txt") (nm "x")
    (by decide) (by decide)
  simpa using h

/-- C9: every batch returned by computeNewNames has all its targets
outside the original listing, even targets equal to names of files being
renamed, so applyRenames finds nothing to stage and reduces to the direct
per-entry finalize loop with an empty staging map. -/
theorem computeNewNames_targets_fresh_no_staging
    (files : List Name) (find replace : Name) (isRegex : Bool) (B : List RenameEntry)
    (h : computeNewNames files find replace isRegex = .ok B) :
    (∀ e ∈ B, e.newName ∉ files) ∧ ∀ d : Dir, applyRenames d B = finalizePhase B [] d := by
  obtain ⟨hprops, _, _⟩ := computeNewNames_ok_props h
  exact ⟨fun e he => (hprops e he).2.1, computeNewNames_no_staging h⟩

/-- C9 witness: the theorem applied to a concrete successful plan. -/
theorem computeNewNames_targets_fresh_no_staging_witness :
    (∀ e ∈ [(⟨nm "qab.txt", nm "ab.txt"⟩ : RenameEntry)], e.newName ∉ [nm "qab.txt"])
    ∧ ∀ d : Dir, applyRenames d [(⟨nm "qab.txt", nm "ab.txt"⟩ : RenameEntry)]
        = finalizePhase [(⟨nm "qab.txt", nm "ab.txt"⟩ : RenameEntry)] [] d :=
  computeNewNames_targets_fresh_no_staging [nm "qab.txt"] (nm "q") (nm "") false
    [⟨nm "qab.txt", nm "ab.txt"⟩] (by rfl)

/-- C4: round trip — if the planner succeeds on the duplicate-free listing
of a directory, applying the returned batch succeeds and the new listing
is exactly the batch targets together with the original files that have
no batch entry. -/
theorem plan_apply_round_trip
    (files : List Name) (find replace : Name) (isRegex : Bool)
    (B : List RenameEntry) (d : Dir)
    (hnd : files.Nodup)
    (hlist : ∀ n, (d n).isSome ↔ n ∈ files)
    (h : computeNewNames files find replace isRegex = .ok B) :
    ∃ d2, applyRenames d B = some d2
      ∧ ∀ n, (d2 n).isSome ↔
          (n ∈ B.map RenameEntry.newName ∨ (n ∈ files ∧ n ∉ B.map RenameEntry.oldName)) := by
  obtain ⟨hprops, hnodup, hsubl⟩ := computeNewNames_ok_props h
  have holdnd : (B.map RenameEntry.oldName).Nodup := List.Nodup.sublist hsubl hnd
  have hmapnil : ∀ (L : List RenameEntry), L.map (effSrc []) = L.map RenameEntry.oldName := by
    intro L
    induction L with
    | nil => rfl
    | cons e t ih =>
      rw [List.map_cons, List.map_cons, ih]
      rfl
  have holdmem : ∀ e ∈ B, e.oldName ∈ files :=
    fun e he => hsubl.subset (List.mem_map_of_mem _ he)
  obtain ⟨d2, hfin, hQ1, hQ2, hQ3⟩ :=
    finalizePhase_spec [] B d
      (by rw [hmapnil]; exact holdnd)
      hnodup
      (fun e he f hf => by
        show effSrc [] e ≠ f.newName
        rw [show effSrc [] e = e.oldName from rfl]
        intro hx
        exact (hprops f hf).2.1 (hx ▸ holdmem e he))
      (fun e he => by
        rw [show effSrc [] e = e.oldName from rfl]
        exact (hlist _).mpr (holdmem e he))
  refine ⟨d2, ?_, ?_⟩
  · rw [computeNewNames_no_staging h d]
    exact hfin
  · intro n
    constructor
    · intro hsome
      by_cases hn1 : n ∈ B.map RenameEntry.newName
      · exact Or.inl hn1
      · by_cases hn2 : n ∈ B.map RenameEntry.oldName
        · rw [hQ3 n hn1 (by rw [hmapnil]; exact hn2)] at hsome
          simp at hsome
        · rw [hQ2 n hn1 (by rw [hmapnil]; exact hn2)] at hsome
          exact Or.inr ⟨(hlist n).mp hsome, hn2⟩
    · intro hcase
      have hiftgt : ∀ hn : n ∈ B.map RenameEntry.newName, (d2 n).isSome := by
        intro hn
        obtain ⟨e, he, hne⟩ := List.mem_map.mp hn
        rw [← hne, hQ1 e he, show effSrc [] e = e.oldName from rfl]
        exact (hlist _).mpr (holdmem e he)
      rcases hcase with hn | ⟨hf, hnold⟩
      · exact hiftgt hn
      · by_cases hn1 : n ∈ B.map RenameEntry.newName
        · exact hiftgt hn1
        · rw [hQ2 n hn1 (by rw [hmapnil]; exact hnold)]
          exact (hlist n).mpr hf

/-- C4 witness: the round trip applied to a one-file directory. -/
theorem plan_apply_round_trip_witness :
    ∃ d2, applyRenames (Dir.ofList [(nm "a1.txt", 5)])
        [(⟨nm "a1.txt", nm "a2.txt"⟩ : RenameEntry)] = some d2
      ∧ ∀ n, (d2 n).isSome ↔
          (n ∈ [(⟨nm "a1.txt", nm "a2.txt"⟩ : RenameEntry)].map RenameEntry.newName
            ∨ (n ∈ [nm "a1.txt"]
              ∧ n ∉ [(⟨nm "a1.txt", nm "a2.txt"⟩ : RenameEntry)].map RenameEntry.oldName)) :=
  plan_apply_round_trip [nm "a1.txt"] (nm "1") (nm "2") false
    [⟨nm "a1.txt", nm "a2.txt"⟩] (Dir.ofList [(nm "a1.txt", 5)])
    (by decide)
    (fun n => by
      rw [Dir.ofList_isSome_iff]
      simp)
    (by rfl)

/-! ### Concrete directories and batches for the executor claims -/

/-- C2 witness: the permutation theorem applied to the swap batch over a
directory holding exactly a.txt and b.txt. -/
theorem applyRenames_realizes_permutations_witness :
    ∃ d2, applyRenames dSwapGood swapBatch = some d2
      ∧ (∀ e ∈ swapBatch, d2 e.newName = dSwapGood e.oldName)
      ∧ (∀ n, n ∉ swapBatch.map RenameEntry.newName →
          n ∈ swapBatch.map RenameEntry.oldName → d2 n = none)
      ∧ (∀ n, n ∉ swapBatch.map RenameEntry.newName →
          n ∉ swapBatch.map RenameEntry.oldName → d2 n = dSwapGood n)
      ∧ (∀ n, (dSwapGood n).isSome → ∃ m, d2 m = dSwapGood n) := by
  apply applyRenames_realizes_permutations dSwapGood swapBatch
  · decide
  · decide
  · decide
  · decide
  · exact Dir.ofList_noRnm (by decide)
  · decide

/-- C2 counterexample: the swap batch has pairwise distinct targets, yet
on a directory that also holds a file whose name equals the first
temporary name, applyRenames succeeds while the content of that third
file is afterwards nowhere in the directory: a file is lost. -/
theorem applyRenames_loses_marker_named_file :
    (swapBatch.map RenameEntry.newName).Nodup
    ∧ dSwapBad (tempName 0 (nm "a.txt")) = some 2
    ∧ applyRenames dSwapBad swapBatch = some dSwapBadFinal
    ∧ ∀ m, dSwapBadFinal m ≠ some 2 := by
  refine ⟨by decide, by rfl, by rfl, ?_⟩
  intro m
  unfold dSwapBadFinal
  split_ifs with h1 h2 h3 h4
  · decide
  · decide
  · decide
  · decide
  · show dSwapBad m ≠ some 2
    unfold dSwapBad Dir.ofList
    rw [lookup_cons_ne h1, lookup_cons_ne h3, lookup_cons_ne h4]
    intro hx
    rw [show List.lookup m ([] : List (Name × Nat)) = none from rfl] at hx
    exact Option.noConfusion hx

/-- C5 (amended): temporary names built from distinct original names never
collide with each other, and when no existing file bears a marker-prefixed
name the staging phase succeeds and leaves every file that is not a batch
source untouched, whatever the target set. -/
theorem tempName_distinct_and_staging_safe :
    (∀ (i j : Nat) (a b : Name), a ≠ b → tempName i a ≠ tempName j b)
    ∧ ∀ (d : Dir) (R : List RenameEntry) (T : List Name),
        (R.map RenameEntry.oldName).Nodup →
        (∀ e ∈ R, (d e.oldName).isSome) →
        (∀ n, (d n).isSome → noRnm n) →
        ∃ d1 moved, stagePhase T R.enum d [] = some (d1, moved)
          ∧ ∀ n, (d n).isSome → n ∉ R.map RenameEntry.oldName → d1 n = d n := by
  constructor
  · exact fun i j a b hne hx => hne (tempName_inj_name hx)
  · intro d R T hOld hEx hHyg
    have hsnd : R.enum.map Prod.snd = R := List.enum_map_snd R
    have hmemE : ∀ p ∈ R.enum, p.2 ∈ R := by
      intro p hp
      have := List.mem_map_of_mem Prod.snd hp
      rwa [hsnd] at this
    have holdsE : R.enum.map (fun p => p.2.oldName) = R.map RenameEntry.oldName := by
      conv_rhs => rw [← hsnd]
      rw [List.map_map]
      rfl
    have holdE_nodup : (R.enum.map (fun p => p.2.oldName)).Nodup := by
      rw [holdsE]
      exact hOld
    have hinjE : ∀ ⦃p⦄, p ∈ R.enum → ∀ ⦃q⦄, q ∈ R.enum →
        p.2.oldName = q.2.oldName → p = q :=
      List.inj_on_of_nodup_map holdE_nodup
    have hnoRnmOld : ∀ e ∈ R, noRnm e.oldName := fun e he => hHyg _ (hEx e he)
    obtain ⟨d1, hstageEq, hstaged, huntouched⟩ :=
      stagePhase_spec T R.enum d []
        (fun p hp => hEx p.2 (hmemE p hp))
        holdE_nodup
        (fun p _ => by
          rw [← Option.not_isSome_iff_eq_none]
          intro hx
          exact hHyg _ hx (rnmMark_prefix_tempName _ _))
        (fun p _ q hq => tempName_ne_of_noRnm (hnoRnmOld q.2 (hmemE q hq)) _ _)
        (fun p hp q hq hne hx => hne (hinjE hp hq (tempName_inj_name hx)))
    refine ⟨d1, _, hstageEq, ?_⟩
    intro n hnsome hnold
    apply huntouched
    intro p hp _
    refine ⟨fun hx => (hHyg n hnsome) (hx ▸ rnmMark_prefix_tempName _ _), ?_⟩
    intro hx
    exact hnold (hx ▸ List.mem_map_of_mem RenameEntry.oldName (hmemE p hp))

/-- C5 witness: distinct original names give distinct temporary names, and
staging a one-entry batch over a marker-free two-file directory leaves the
unrelated file untouched. -/
theorem tempName_distinct_and_staging_safe_witness :
    tempName 0 (nm "p.txt") ≠ tempName 1 (nm "q.txt")
    ∧ ∃ d1 moved,
        stagePhase [nm "p.txt"] ([(⟨nm "p.txt", nm "p.txt"⟩ : RenameEntry)]).enum
          (Dir.ofList [(nm "p.txt", 7), (nm "z.txt", 8)]) [] = some (d1, moved)
        ∧ ∀ n, ((Dir.ofList [(nm "p.txt", 7), (nm "z.txt", 8)]) n).isSome →
            n ∉ ([(⟨nm "p.txt", nm "p.txt"⟩ : RenameEntry)]).map RenameEntry.oldName →
            d1 n = (Dir.ofList [(nm "p.txt", 7), (nm "z.txt", 8)]) n := by
  constructor
  · exact tempName_distinct_and_staging_safe.1 0 1 _ _ (by decide)
  · exact tempName_distinct_and_staging_safe.2
      (Dir.ofList [(nm "p.txt", 7), (nm "z.txt", 8)])
      [⟨nm "p.txt", nm "p.txt"⟩] [nm "p.txt"]
      (by decide) (by decide) (Dir.ofList_noRnm (by decide))

/-- C5 counterexample: the temporary name of entry 1 equals the name of a
real file of the directory, and the staging phase overwrites that file:
after staging its content is nowhere in the directory, so a file not in
the batch was destroyed by staging alone. -/
theorem stagePhase_overwrites_marker_named_file :
    dStageBad (tempName 1 (nm "d.txt")) = some 12
    ∧ stagePhase (swapBatchCD.map RenameEntry.newName) swapBatchCD.enum dStageBad []
        = some (dStageBadFinal,
            [(nm "d.txt", tempName 1 (nm "d.txt")), (nm "c.txt", tempName 0 (nm "c.txt"))])
    ∧ ∀ m, dStageBadFinal m ≠ some 12 := by
  refine ⟨by rfl, by rfl, ?_⟩
  intro m
  unfold dStageBadFinal
  split_ifs with h1 h2 h3 h4
  · decide
  · decide
  · decide
  · decide
  · show dStageBad m ≠ some 12
    unfold dStageBad Dir.ofList
    rw [lookup_cons_ne h4, lookup_cons_ne h2, lookup_cons_ne h1]
    intro hx
    rw [show List.lookup m ([] : List (Name × Nat)) = none from rfl] at hx
    exact Option.noConfusion hx

end Rnm
